import Mathlib

/-!
# A verification of the `slmcache` in-memory vector store and its TTL expiry

This development shallowly embeds the Go sources of `jeefy/slmcache`:

* `internal/store/memory.go` — the in-memory `Store` implementation
  (`inMemoryStore` with its entry table, lockstep `ids`/`vectors` slices and
  monotone `nextID` counter, the CRUD and metadata operations, `cosine`, and
  the top-k selection loop of `SearchByVector`);
* `internal/server/server.go` — the TTL expiry logic (`entryExpiredAt`,
  `isExpired`, `expireIfNeeded`, `purgeExpired`, and the start guard of
  `startJanitor`).

Modelling conventions:

* Go `float64` vector components are idealised as `ℚ`; the real-valued
  `cosine` score lives in `ℝ` because of `math.Sqrt`.
* Go `time.Time` values are idealised as `ℤ`; the Go zero time is `0`,
  `t.IsZero()` is `t = 0`, `a.Before b` is `a < b`, `a.After b` is `a > b`.
  Each mutating operation takes the current clock reading `now` as an
  explicit argument (the Go code reads `time.Now().UTC()`).
* Go `map` values become association lists with Go-map semantics
  (`alookup` / `aset` / `aerase`); a possibly-`nil` Go map becomes an
  `Option` of an association list.
* Go methods that mutate the receiver become functions returning the new
  store paired with the Go return values; an error return carries the
  untouched store, exactly as the Go methods return before mutating.
* The `sync.RWMutex` is elided: every operation is modelled as one atomic
  step, which is what the lock guarantees externally.
-/

set_option autoImplicit false

namespace Slmcache

/-- A metadata value: Go stores `interface{}` values decoded from JSON.  The
store treats them opaquely, so a closed variant of scalars suffices. -/
inductive MVal where
  | str (s : String)
  | num (n : ℤ)
  | boolean (b : Bool)
  | null
  deriving DecidableEq, Repr

/-- `models.Entry` from `internal/models/models.go`.  `Metadata` is a
possibly-`nil` Go map, so an `Option` of an association list. -/
structure Entry where
  id : ℤ
  prompt : String
  response : String
  metadata : Option (List (String × MVal))
  createdAt : ℤ
  updatedAt : ℤ
  deriving DecidableEq, Repr

section AList

variable {α : Type} {β : Type} [DecidableEq α]

/-- Go map read `m[k]` (as `v, ok := m[k]`). -/
def alookup (k : α) : List (α × β) → Option β
  | [] => none
  | p :: rest => if p.1 = k then some p.2 else alookup k rest

/-- Go map write `m[k] = v`: replace the binding if present, else add one. -/
def aset (m : List (α × β)) (k : α) (v : β) : List (α × β) :=
  if (alookup k m).isSome then
    m.map (fun p => if p.1 = k then (k, v) else p)
  else
    m ++ [(k, v)]

/-- Go map delete `delete(m, k)`. -/
def aerase (m : List (α × β)) (k : α) : List (α × β) :=
  m.filter (fun p => decide (p.1 ≠ k))

end AList

/-- `inMemoryStore` from `internal/store/memory.go`: entry table keyed by id,
vector index and id slice in lockstep, and the `nextID` counter. -/
structure inMemoryStore where
  entries : List (ℤ × Entry)
  vectors : List (List ℚ)
  ids : List ℤ
  nextID : ℤ
  deriving DecidableEq, Repr

/-- `store.New()`. -/
def storeNew : inMemoryStore :=
  { entries := [], vectors := [], ids := [], nextID := 1 }

/-- `CreateEntryWithVector`: rejects a nil entry, otherwise assigns the next
id, back-fills a zero `CreatedAt` with `now`, stamps `UpdatedAt`, and appends
to the entry table, id slice and vector index. -/
def createEntryWithVector (s : inMemoryStore) (e : Option Entry) (vec : List ℚ)
    (now : ℤ) : inMemoryStore × Except String ℤ :=
  match e with
  | none => (s, .error "nil entry")
  | some e =>
    let id := s.nextID
    let createdAt := if e.createdAt = 0 then now else e.createdAt
    let e' := { e with id := id, createdAt := createdAt, updatedAt := now }
    ({ s with nextID := s.nextID + 1,
              entries := aset s.entries id e',
              ids := s.ids ++ [id],
              vectors := s.vectors ++ [vec] },
     .ok id)

/-- The id-slice scan `for i, sid := range s.ids { if sid == id { ... } }`:
the index of the first occurrence of `id`, if any. -/
def idIndex (id : ℤ) : List ℤ → Option ℕ
  | [] => none
  | x :: rest => if x = id then some 0 else (idIndex id rest).map (· + 1)

/-- `UpdateEntryWithVector`: NotFound when absent; keeps the stored
`CreatedAt` when it is set (else back-fills a zero incoming one with `now`),
stamps `UpdatedAt`, replaces the entry, and overwrites the vector at the
id's slot (appending when the id is missing from the id slice, as the Go
loop's fall-through does). -/
def updateEntryWithVector (s : inMemoryStore) (id : ℤ) (e : Entry)
    (vec : List ℚ) (now : ℤ) : inMemoryStore × Except String Unit :=
  match alookup id s.entries with
  | none => (s, .error "not found")
  | some current =>
    let createdAt :=
      if current.createdAt ≠ 0 then current.createdAt
      else if e.createdAt = 0 then now else e.createdAt
    let e' := { e with id := id, createdAt := createdAt, updatedAt := now }
    let entries' := aset s.entries id e'
    match idIndex id s.ids with
    | some i => ({ s with entries := entries', vectors := s.vectors.set i vec }, .ok ())
    | none => ({ s with entries := entries',
                        ids := s.ids ++ [id],
                        vectors := s.vectors ++ [vec] }, .ok ())

/-- `GetEntry`: NotFound when absent, otherwise the stored record (the Go
clone is identity in a pure model). -/
def getEntry (s : inMemoryStore) (id : ℤ) : Except String Entry :=
  match alookup id s.entries with
  | none => .error "not found"
  | some e => .ok e

/-- `DeleteEntry`: NotFound when absent; otherwise removes the entry and
filters the id slice and vector index in lockstep. -/
def deleteEntry (s : inMemoryStore) (id : ℤ) : inMemoryStore × Except String Unit :=
  if (alookup id s.entries).isSome then
    let pairs := (s.ids.zip s.vectors).filter (fun p => decide (p.1 ≠ id))
    ({ s with entries := aerase s.entries id,
              ids := pairs.map Prod.fst,
              vectors := pairs.map Prod.snd },
     .ok ())
  else
    (s, .error "not found")

/-- The merge loop of `UpdateEntryMetadata` with `replace = false`:
`for k, v := range metadata { updated.Metadata[k] = v }`. -/
def mergeMeta (base : List (String × MVal)) (patch : List (String × MVal)) :
    List (String × MVal) :=
  patch.foldl (fun acc q => aset acc q.1 q.2) base

/-- `UpdateEntryMetadata`: NotFound when absent; with `replace` the metadata
becomes exactly `patch` (`nil` stays `nil`); otherwise `patch` is merged into
the existing metadata (a `nil` base becomes an empty map first); `UpdatedAt`
is stamped. -/
def updateEntryMetadata (s : inMemoryStore) (id : ℤ)
    (patch : Option (List (String × MVal))) (replace : Bool) (now : ℤ) :
    inMemoryStore × Except String Unit :=
  match alookup id s.entries with
  | none => (s, .error "not found")
  | some entry =>
    let md :=
      if replace then
        match patch with
        | none => none
        | some m => some m
      else
        some (mergeMeta (entry.metadata.getD []) (patch.getD []))
    ({ s with entries := aset s.entries id
                { entry with metadata := md, updatedAt := now } },
     .ok ())

/-- `DeleteEntryMetadata`: NotFound when absent; with no keys the metadata is
cleared to `nil`, otherwise the named keys are deleted from a non-`nil`
metadata map; `UpdatedAt` is stamped. -/
def deleteEntryMetadata (s : inMemoryStore) (id : ℤ) (keys : List String)
    (now : ℤ) : inMemoryStore × Except String Unit :=
  match alookup id s.entries with
  | none => (s, .error "not found")
  | some entry =>
    let md :=
      if keys = [] then none
      else
        match entry.metadata with
        | none => none
        | some m => some (keys.foldl (fun acc k => aerase acc k) m)
    ({ s with entries := aset s.entries id
                { entry with metadata := md, updatedAt := now } },
     .ok ())

/-- `AllIDs`: snapshot of the id slice. -/
def allIDs (s : inMemoryStore) : List ℤ :=
  s.ids

/-- The dot-product accumulation of `cosine` (`dot += a[i] * b[i]`). -/
def dotQ (a b : List ℚ) : ℚ :=
  (a.zip b).foldl (fun acc p => acc + p.1 * p.2) 0

/-- The squared-magnitude accumulation of `cosine` (`da += a[i] * a[i]`). -/
def sumSq (a : List ℚ) : ℚ :=
  a.foldl (fun acc x => acc + x * x) 0

/-- `cosine` from `memory.go`: `0` for empty or length-mismatched inputs and
for zero magnitudes, otherwise `dot / (√da · √db)`. -/
noncomputable def cosine (a b : List ℚ) : ℝ :=
  if a.length = 0 ∨ b.length = 0 ∨ a.length ≠ b.length then 0
  else if sumSq a = 0 ∨ sumSq b = 0 then 0
  else (dotQ a b : ℝ) / (Real.sqrt (sumSq a : ℝ) * Real.sqrt (sumSq b : ℝ))

/-- The inner argmin scan of `SearchByVector`:
`minIdx := 0; for j := 1; j < len(sel); j++ { if sel[j].score < sel[minIdx].score { minIdx = j } }`.
Ties keep the earlier index because the comparison is strict. -/
noncomputable def minIdxGo (sel : List (ℕ × ℝ)) : ℕ :=
  (List.range' 1 (sel.length - 1)).foldl
    (fun m j => if (sel.getD j (0, 0)).2 < (sel.getD m (0, 0)).2 then j else m) 0

/-- One iteration of the selection loop of `SearchByVector`: append while the
working set is below the cap, otherwise replace the current minimum when the
new score beats it. -/
noncomputable def selStep (limit : ℕ) (sel : List (ℕ × ℝ)) (i : ℕ) (sc : ℝ) :
    List (ℕ × ℝ) :=
  if sel.length < limit then sel ++ [(i, sc)]
  else
    let m := minIdxGo sel
    if sc > (sel.getD m (0, 0)).2 then sel.set m (i, sc) else sel

/-- The selection loop of `SearchByVector` (`for i, sc := range scores`),
with `i` the running index. -/
noncomputable def selLoop (limit : ℕ) : List (ℕ × ℝ) → ℕ → List ℝ → List (ℕ × ℝ)
  | sel, _, [] => sel
  | sel, i, sc :: rest => selLoop limit (selStep limit sel i sc) (i + 1) rest

/-- `SearchByVector`: a non-positive cap becomes the default 10; every stored
vector is scored against the query; the selection loop keeps at most `limit`
best candidates; the selected slots are mapped back to ids and scores. -/
noncomputable def searchByVector (s : inMemoryStore) (vec : List ℚ) (limit : ℤ) :
    List ℤ × List ℝ :=
  let lim : ℕ := if limit ≤ 0 then 10 else limit.toNat
  let scores := s.vectors.map (fun v => cosine vec v)
  let sel := selLoop lim [] 0 scores
  (sel.map (fun p => s.ids.getD p.1 0), sel.map (fun p => p.2))

/-! ## TTL expiry (`internal/server/server.go`) -/

/-- `entryExpiredAt`: the effective timestamp is `UpdatedAt` unless it is
zero or `CreatedAt` is later, in which case `CreatedAt`; a zero effective
timestamp never expires; otherwise expired iff strictly before the cutoff. -/
def entryExpiredAt (e : Option Entry) (cutoff : ℤ) : Bool :=
  match e with
  | none => false
  | some e =>
    let ts := if e.updatedAt = 0 ∨ e.createdAt > e.updatedAt then e.createdAt
              else e.updatedAt
    if ts = 0 then false else decide (ts < cutoff)

/-- `Server.isExpired`: a non-positive TTL disables expiry; otherwise the
cutoff is `now − TTL`. -/
def isExpired (ttl now : ℤ) (e : Option Entry) : Bool :=
  if ttl ≤ 0 then false else entryExpiredAt e (now - ttl)

/-- `Server.expireIfNeeded`: lazily deletes an expired entry at read time and
reports whether it did. -/
def expireIfNeeded (ttl now : ℤ) (st : inMemoryStore) (e : Option Entry) :
    inMemoryStore × Bool :=
  if isExpired ttl now e then
    (match e with
     | some e => (deleteEntry st e.id).1
     | none => st, true)
  else (st, false)

/-- One iteration of the sweep loop of `Server.purgeExpired`: fetch the entry
(skipping ids that vanished), delete it when expired, and count removals. -/
def purgeStep (cutoff : ℤ) (acc : inMemoryStore × ℕ) (id : ℤ) :
    inMemoryStore × ℕ :=
  match getEntry acc.1 id with
  | .error _ => acc
  | .ok e =>
    if entryExpiredAt (some e) cutoff then ((deleteEntry acc.1 id).1, acc.2 + 1)
    else acc

/-- `Server.purgeExpired`: a non-positive TTL removes nothing; otherwise every
id in the `AllIDs` snapshot is checked against the cutoff `now − TTL`. -/
def purgeExpired (ttl now : ℤ) (st : inMemoryStore) : inMemoryStore × ℕ :=
  if ttl ≤ 0 then (st, 0)
  else (allIDs st).foldl (purgeStep (now - ttl)) (st, 0)

/-- The start guard of `Server.startJanitor`
(`if s.entryTTL <= 0 || s.janitorStop == nil { return }`): whether the
background sweep loop is started.  The goroutine/ticker machinery itself is
concurrency and is not modelled beyond this decision. -/
def startJanitor (ttl : ℤ) (hasStopChannel : Bool) : Bool :=
  if ttl ≤ 0 ∨ hasStopChannel = false then false else true

/-! ## Operations as a transition system, and the store invariant -/

/-- One mutating store call, for stating "over every subsequent operation"
properties. -/
inductive Op where
  | create (e : Option Entry) (vec : List ℚ) (now : ℤ)
  | update (id : ℤ) (e : Entry) (vec : List ℚ) (now : ℤ)
  | delete (id : ℤ)
  | umeta (id : ℤ) (patch : Option (List (String × MVal))) (replace : Bool) (now : ℤ)
  | dmeta (id : ℤ) (keys : List String) (now : ℤ)

/-- The store state after one mutating call (the Go methods mutate the
receiver; a failed call leaves it untouched). -/
def applyOp (s : inMemoryStore) : Op → inMemoryStore
  | .create e vec now => (createEntryWithVector s e vec now).1
  | .update id e vec now => (updateEntryWithVector s id e vec now).1
  | .delete id => (deleteEntry s id).1
  | .umeta id patch replace now => (updateEntryMetadata s id patch replace now).1
  | .dmeta id keys now => (deleteEntryMetadata s id keys now).1

/-- Well-formedness of the store: distinct ids, vector index in lockstep with
the id slice, entry-table keys and id slice holding the same ids, and every
stored id strictly below the `nextID` counter. -/
def WF (s : inMemoryStore) : Prop :=
  s.ids.Nodup ∧
  s.vectors.length = s.ids.length ∧
  (s.entries.map Prod.fst).Nodup ∧
  (∀ k ∈ s.entries.map Prod.fst, k ∈ s.ids) ∧
  (∀ k ∈ s.ids, k ∈ s.entries.map Prod.fst) ∧
  (∀ k ∈ s.ids, k < s.nextID)

instance (s : inMemoryStore) : Decidable (WF s) := by
  unfold WF; infer_instance

/-! ## Association-list lemmas -/

section AListLemmas

variable {α : Type} {β : Type} [DecidableEq α]

theorem alookup_append_of_none {m l : List (α × β)} {k : α}
    (h : alookup k m = none) : alookup k (m ++ l) = alookup k l := by
  induction m with
  | nil => simp
  | cons p rest ih =>
    by_cases hp : p.1 = k
    · simp [alookup, hp] at h
    · simp only [alookup, if_neg hp, List.cons_append] at h ⊢
      exact ih h

theorem alookup_overwrite_self {m : List (α × β)} {k : α} (v : β)
    (h : (alookup k m).isSome) :
    alookup k (m.map (fun p => if p.1 = k then (k, v) else p)) = some v := by
  induction m with
  | nil => simp [alookup] at h
  | cons p rest ih =>
    by_cases hp : p.1 = k
    · simp [alookup, hp]
    · simp only [alookup, if_neg hp] at h
      simp only [List.map_cons, if_neg hp, alookup, if_neg hp]
      exact ih h

theorem alookup_overwrite_ne {m : List (α × β)} {k k' : α} (v : β)
    (h : k' ≠ k) :
    alookup k' (m.map (fun p => if p.1 = k then (k, v) else p)) = alookup k' m := by
  induction m with
  | nil => rfl
  | cons p rest ih =>
    by_cases hp : p.1 = k
    · have : p.1 ≠ k' := by rw [hp]; exact Ne.symm h
      simp only [List.map_cons, if_pos hp, alookup, if_neg (Ne.symm h), if_neg this]
      exact ih
    · simp only [List.map_cons, if_neg hp, alookup]
      by_cases hp' : p.1 = k'
      · simp [hp']
      · simp only [if_neg hp']
        exact ih

theorem alookup_aset_self (m : List (α × β)) (k : α) (v : β) :
    alookup k (aset m k v) = some v := by
  unfold aset
  by_cases h : (alookup k m).isSome
  · rw [if_pos h]
    exact alookup_overwrite_self v h
  · rw [if_neg h]
    have hm : alookup k m = none := by
      cases hmm : alookup k m with
      | none => rfl
      | some v => rw [hmm] at h; simp at h
    rw [alookup_append_of_none hm]
    simp [alookup]

theorem alookup_aset_ne {m : List (α × β)} {k k' : α} (v : β) (h : k' ≠ k) :
    alookup k' (aset m k v) = alookup k' m := by
  unfold aset
  by_cases hs : (alookup k m).isSome
  · rw [if_pos hs]
    exact alookup_overwrite_ne v h
  · rw [if_neg hs]
    clear hs
    induction m with
    | nil => simp [alookup, Ne.symm h]
    | cons p rest ih =>
      by_cases hp : p.1 = k'
      · simp [alookup, hp]
      · simp only [List.cons_append, alookup, if_neg hp]
        exact ih

theorem alookup_aerase_self (m : List (α × β)) (k : α) :
    alookup k (aerase m k) = none := by
  induction m with
  | nil => rfl
  | cons p rest ih =>
    by_cases hp : p.1 = k
    · simpa [aerase, List.filter, hp] using ih
    · simp only [aerase, List.filter, hp] at ih ⊢
      simpa [alookup, hp] using ih

theorem alookup_aerase_ne {m : List (α × β)} {k k' : α} (h : k' ≠ k) :
    alookup k' (aerase m k) = alookup k' m := by
  induction m with
  | nil => rfl
  | cons p rest ih =>
    by_cases hp : p.1 = k
    · have hp' : p.1 ≠ k' := by rw [hp]; exact Ne.symm h
      simp only [aerase, List.filter, hp] at ih ⊢
      simpa [alookup, hp', decide_eq_true_eq] using ih
    · by_cases hp' : p.1 = k'
      · simp [aerase, List.filter, alookup, hp, hp', h]
      · simp only [aerase, List.filter, alookup, hp, hp'] at ih ⊢
        simpa [alookup, hp, hp'] using ih


theorem alookup_isSome_iff_mem (m : List (α × β)) (k : α) :
    (alookup k m).isSome ↔ k ∈ m.map Prod.fst := by
  induction m with
  | nil => simp [alookup]
  | cons p rest ih =>
    by_cases hp : p.1 = k
    · simp [alookup, hp]
    · simp [alookup, hp, Ne.symm hp, ih]

theorem alookup_eq_none_iff (m : List (α × β)) (k : α) :
    alookup k m = none ↔ k ∉ m.map Prod.fst := by
  rw [← alookup_isSome_iff_mem]
  cases h : alookup k m <;> simp [h]

theorem aset_map_fst_of_present {m : List (α × β)} {k : α} (v : β)
    (h : (alookup k m).isSome) : (aset m k v).map Prod.fst = m.map Prod.fst := by
  unfold aset
  rw [if_pos h, List.map_map]
  apply List.map_congr_left
  intro p _
  by_cases hp : p.1 = k <;> simp [hp]

theorem aset_map_fst_of_absent {m : List (α × β)} {k : α} (v : β)
    (h : ¬(alookup k m).isSome) :
    (aset m k v).map Prod.fst = m.map Prod.fst ++ [k] := by
  unfold aset
  rw [if_neg h, List.map_append]
  rfl

theorem aerase_map_fst (m : List (α × β)) (k : α) :
    (aerase m k).map Prod.fst = (m.map Prod.fst).filter (fun x => decide (x ≠ k)) := by
  induction m with
  | nil => rfl
  | cons p rest ih =>
    by_cases hp : p.1 = k
    · simpa [aerase, List.filter, hp] using ih
    · simpa [aerase, List.filter, hp] using ih

theorem alookup_mergeMeta (base patch : List (String × MVal)) (k : String)
    (h : (patch.map Prod.fst).Nodup) :
    alookup k (mergeMeta base patch) =
      ((alookup k patch).orElse (fun _ => alookup k base)) := by
  induction patch generalizing base with
  | nil => simp [mergeMeta, alookup, Option.orElse]
  | cons q rest ih =>
    simp only [List.map_cons, List.nodup_cons] at h
    have step : mergeMeta base (q :: rest) = mergeMeta (aset base q.1 q.2) rest := by
      simp [mergeMeta]
    rw [step, ih _ h.2]
    by_cases hk : q.1 = k
    · have hk' : alookup k rest = none := by
        rw [alookup_eq_none_iff]
        intro hmem
        exact h.1 (hk ▸ hmem)
      rw [hk']
      subst hk
      simp [alookup_aset_self, alookup, Option.orElse]
    · rw [alookup_aset_ne _ (Ne.symm hk)]
      simp [alookup, hk]

end AListLemmas

/-! ## List helper lemmas -/

theorem idIndex_of_mem {l : List ℤ} {b : ℤ} (h : b ∈ l) :
    ∃ j, idIndex b l = some j ∧ j < l.length ∧ l.getD j 0 = b := by
  induction l with
  | nil => simp at h
  | cons x rest ih =>
    by_cases hx : x = b
    · exact ⟨0, by simp [idIndex, hx], by simp, by simp [hx]⟩
    · have hb : b ∈ rest := by
        rcases List.mem_cons.mp h with h' | h'
        · exact absurd h'.symm hx
        · exact h'
      obtain ⟨j, hj1, hj2, hj3⟩ := ih hb
      exact ⟨j + 1, by simp [idIndex, hx, hj1], by simpa using hj2, by simpa using hj3⟩

theorem idIndex_eq_none_iff {l : List ℤ} {b : ℤ} :
    idIndex b l = none ↔ b ∉ l := by
  induction l with
  | nil => simp [idIndex]
  | cons x rest ih =>
    by_cases hx : x = b
    · simp [idIndex, hx]
    · simp [idIndex, hx, ih, Ne.symm hx]

theorem idIndex_getD_of_nodup {l : List ℤ} (hn : l.Nodup) {j : ℕ}
    (hj : j < l.length) : idIndex (l.getD j 0) l = some j := by
  induction l generalizing j with
  | nil => simp at hj
  | cons x rest ih =>
    rcases Nat.eq_zero_or_pos j with hj0 | hj0
    · subst hj0
      simp [idIndex]
    · obtain ⟨j', rfl⟩ := Nat.exists_eq_add_of_lt hj0
      simp only [Nat.zero_add] at *
      have hj' : j' < rest.length := by simpa using hj
      have hget : (x :: rest).getD (j' + 1) 0 = rest.getD j' 0 := by simp
      rw [hget]
      have hne : x ≠ rest.getD j' 0 := by
        intro hcontra
        have : rest.getD j' 0 ∈ rest := by
          rw [List.getD_eq_getElem _ _ hj']
          exact List.getElem_mem hj'
        rw [← hcontra] at this
        exact (List.nodup_cons.mp hn).1 this
      rw [idIndex, if_neg hne, ih (List.nodup_cons.mp hn).2 hj']
      rfl

/-- A duplicate-free list of `n` naturals all below `n` contains every `j < n`. -/
theorem mem_of_nodup_length_lt {l : List ℕ} (hn : l.Nodup)
    (hb : ∀ x ∈ l, x < l.length) : ∀ j < l.length, j ∈ l := by
  intro j hj
  have hsub : l.toFinset ⊆ Finset.range l.length := by
    intro x hx
    rw [List.mem_toFinset] at hx
    exact Finset.mem_range.mpr (hb x hx)
  have hcard : (Finset.range l.length).card ≤ l.toFinset.card := by
    rw [Finset.card_range, List.toFinset_card_of_nodup hn]
  have heq := Finset.eq_of_subset_of_card_le hsub hcard
  have : j ∈ Finset.range l.length := Finset.mem_range.mpr hj
  rw [← heq, List.mem_toFinset] at this
  exact this

theorem zip_filter_map_fst {a : ℤ} :
    ∀ (l₁ : List ℤ) (l₂ : List (List ℚ)), l₁.length = l₂.length →
      ((l₁.zip l₂).filter (fun p => decide (p.1 ≠ a))).map Prod.fst =
        l₁.filter (fun x => decide (x ≠ a)) := by
  intro l₁
  induction l₁ with
  | nil => intro l₂ _; simp
  | cons x rest ih =>
    intro l₂ hlen
    cases l₂ with
    | nil => simp at hlen
    | cons v vrest =>
      simp only [List.length_cons, Nat.add_right_cancel_iff] at hlen
      by_cases hx : x = a
      · simp only [List.zip_cons_cons, List.filter, hx]
        simpa using ih vrest hlen
      · simp only [List.zip_cons_cons, List.filter]
        have hd : decide ((x, v).1 ≠ a) = true := by simp [hx]
        rw [hd]
        simpa using ih vrest hlen

/-! ## Shapes of the operations -/

theorem WF.idsNodup {s : inMemoryStore} (h : WF s) : s.ids.Nodup := h.1

theorem WF.vecLen {s : inMemoryStore} (h : WF s) :
    s.vectors.length = s.ids.length := h.2.1

theorem WF.keysNodup {s : inMemoryStore} (h : WF s) :
    (s.entries.map Prod.fst).Nodup := h.2.2.1

theorem WF.keys_sub {s : inMemoryStore} (h : WF s) :
    ∀ k ∈ s.entries.map Prod.fst, k ∈ s.ids := h.2.2.2.1

theorem WF.ids_sub {s : inMemoryStore} (h : WF s) :
    ∀ k ∈ s.ids, k ∈ s.entries.map Prod.fst := h.2.2.2.2.1

theorem WF.ids_lt {s : inMemoryStore} (h : WF s) :
    ∀ k ∈ s.ids, k < s.nextID := h.2.2.2.2.2

theorem deleteEntry_of_present {s : inMemoryStore} {id : ℤ}
    (h : (alookup id s.entries).isSome) :
    deleteEntry s id =
      ({ s with entries := aerase s.entries id,
                ids := ((s.ids.zip s.vectors).filter (fun p => decide (p.1 ≠ id))).map Prod.fst,
                vectors := ((s.ids.zip s.vectors).filter (fun p => decide (p.1 ≠ id))).map Prod.snd },
       .ok ()) := by
  unfold deleteEntry
  rw [if_pos h]

theorem deleteEntry_of_absent {s : inMemoryStore} {id : ℤ}
    (h : ¬(alookup id s.entries).isSome) :
    deleteEntry s id = (s, .error "not found") := by
  unfold deleteEntry
  rw [if_neg h]

theorem deleteEntry_ids_of_present {s : inMemoryStore} {id : ℤ}
    (h : (alookup id s.entries).isSome)
    (hlen : s.vectors.length = s.ids.length) :
    (deleteEntry s id).1.ids = s.ids.filter (fun x => decide (x ≠ id)) := by
  rw [deleteEntry_of_present h]
  exact zip_filter_map_fst s.ids s.vectors hlen.symm

theorem wf_aset_present {s : inMemoryStore} {id : ℤ} (e : Entry)
    (hWF : WF s) (h : (alookup id s.entries).isSome) :
    WF { s with entries := aset s.entries id e } := by
  obtain ⟨h1, h2, h3, h4, h5, h6⟩ := hWF
  refine ⟨h1, h2, ?_, ?_, ?_, h6⟩
  · rwa [aset_map_fst_of_present e h]
  · rw [aset_map_fst_of_present e h]; exact h4
  · rw [aset_map_fst_of_present e h]; exact h5

theorem wf_create (s : inMemoryStore) (e : Option Entry) (vec : List ℚ)
    (now : ℤ) (hWF : WF s) : WF (createEntryWithVector s e vec now).1 := by
  cases e with
  | none => exact hWF
  | some e =>
    obtain ⟨h1, h2, h3, h4, h5, h6⟩ := hWF
    have hnid : s.nextID ∉ s.ids := fun hc => lt_irrefl _ (h6 _ hc)
    have hkey : ¬(alookup s.nextID s.entries).isSome := by
      rw [alookup_isSome_iff_mem]
      intro hc
      exact hnid (h4 _ hc)
    simp only [createEntryWithVector]
    refine ⟨?_, ?_, ?_, ?_, ?_, ?_⟩
    · rw [List.nodup_append]
      exact ⟨h1, List.nodup_singleton _, by
        intro x hx hx'
        rw [List.mem_singleton] at hx'
        exact hnid (hx' ▸ hx)⟩
    · simp [h2]
    · rw [aset_map_fst_of_absent _ hkey, List.nodup_append]
      refine ⟨h3, List.nodup_singleton _, ?_⟩
      intro x hx hx'
      rw [List.mem_singleton] at hx'
      exact hnid (hx' ▸ h4 _ hx)
    · rw [aset_map_fst_of_absent _ hkey]
      intro k hk
      rcases List.mem_append.mp hk with hk | hk
      · exact List.mem_append_left _ (h4 _ hk)
      · exact List.mem_append_right _ hk
    · rw [aset_map_fst_of_absent _ hkey]
      intro k hk
      rcases List.mem_append.mp hk with hk | hk
      · exact List.mem_append_left _ (h5 _ hk)
      · exact List.mem_append_right _ hk
    · intro k hk
      rcases List.mem_append.mp hk with hk | hk
      · exact lt_trans (h6 _ hk) (lt_add_one _)
      · rw [List.mem_singleton] at hk
        subst hk
        exact lt_add_one _

theorem wf_update (s : inMemoryStore) (id : ℤ) (e : Entry) (vec : List ℚ)
    (now : ℤ) (hWF : WF s) : WF (updateEntryWithVector s id e vec now).1 := by
  rcases hcur : alookup id s.entries with _ | current
  · simp only [updateEntryWithVector, hcur]
    exact hWF
  · have hmem : id ∈ s.ids := by
      apply hWF.keys_sub
      rw [← alookup_isSome_iff_mem, hcur]
      rfl
    obtain ⟨j, hj1, hj2, hj3⟩ := idIndex_of_mem hmem
    have hset := wf_aset_present
      { e with id := id,
               createdAt := if current.createdAt ≠ 0 then current.createdAt
                            else if e.createdAt = 0 then now else e.createdAt,
               updatedAt := now }
      hWF (by rw [hcur]; rfl)
    simp only [updateEntryWithVector, hcur, hj1]
    obtain ⟨g1, g2, g3, g4, g5, g6⟩ := hset
    exact ⟨g1, by simpa using g2, g3, g4, g5, g6⟩

theorem wf_delete (s : inMemoryStore) (id : ℤ) (hWF : WF s) :
    WF (deleteEntry s id).1 := by
  by_cases h : (alookup id s.entries).isSome
  · obtain ⟨h1, h2, h3, h4, h5, h6⟩ := hWF
    have hids := deleteEntry_ids_of_present h h2
    rw [deleteEntry_of_present h] at hids ⊢
    simp only at hids ⊢
    refine ⟨?_, ?_, ?_, ?_, ?_, ?_⟩
    · rw [hids]; exact h1.filter _
    · rw [hids]
      have : (((s.ids.zip s.vectors).filter (fun p => decide (p.1 ≠ id))).map Prod.fst).length =
          (((s.ids.zip s.vectors).filter (fun p => decide (p.1 ≠ id))).map Prod.snd).length := by
        simp
      rw [← zip_filter_map_fst s.ids s.vectors h2.symm, ← this]
    · rw [aerase_map_fst]; exact h3.filter _
    · intro k hk
      rw [aerase_map_fst, List.mem_filter] at hk
      rw [hids, List.mem_filter]
      exact ⟨h4 _ hk.1, hk.2⟩
    · intro k hk
      rw [hids, List.mem_filter] at hk
      rw [aerase_map_fst, List.mem_filter]
      exact ⟨h5 _ hk.1, hk.2⟩
    · intro k hk
      rw [hids, List.mem_filter] at hk
      exact h6 _ hk.1
  · rw [deleteEntry_of_absent h]
    exact hWF

theorem wf_umeta (s : inMemoryStore) (id : ℤ)
    (patch : Option (List (String × MVal))) (replace : Bool) (now : ℤ)
    (hWF : WF s) : WF (updateEntryMetadata s id patch replace now).1 := by
  rcases hcur : alookup id s.entries with _ | entry
  · simp only [updateEntryMetadata, hcur]
    exact hWF
  · simp only [updateEntryMetadata, hcur]
    exact wf_aset_present _ hWF (by rw [hcur]; rfl)

theorem wf_dmeta (s : inMemoryStore) (id : ℤ) (keys : List String) (now : ℤ)
    (hWF : WF s) : WF (deleteEntryMetadata s id keys now).1 := by
  rcases hcur : alookup id s.entries with _ | entry
  · simp only [deleteEntryMetadata, hcur]
    exact hWF
  · simp only [deleteEntryMetadata, hcur]
    exact wf_aset_present _ hWF (by rw [hcur]; rfl)

theorem wf_applyOp (s : inMemoryStore) (op : Op) (hWF : WF s) :
    WF (applyOp s op) := by
  cases op with
  | create e vec now => exact wf_create s e vec now hWF
  | update id e vec now => exact wf_update s id e vec now hWF
  | delete id => exact wf_delete s id hWF
  | umeta id patch replace now => exact wf_umeta s id patch replace now hWF
  | dmeta id keys now => exact wf_dmeta s id keys now hWF

/-! ## Absent ids stay absent; deletion is terminal -/

theorem getEntry_error_of_not_mem {s : inMemoryStore} {id : ℤ} (hWF : WF s)
    (h : id ∉ s.ids) : getEntry s id = .error "not found" := by
  have hkey : id ∉ s.entries.map Prod.fst := fun hc => h (hWF.keys_sub _ hc)
  have : alookup id s.entries = none := (alookup_eq_none_iff _ _).mpr hkey
  simp [getEntry, this]

theorem fresh_applyOp (s : inMemoryStore) (op : Op) (x : ℤ) (hWF : WF s)
    (hx : x ∉ s.ids) (hlt : x < s.nextID) :
    x ∉ (applyOp s op).ids ∧ x < (applyOp s op).nextID := by
  cases op with
  | create e vec now =>
    cases e with
    | none => exact ⟨hx, hlt⟩
    | some e =>
      simp only [applyOp, createEntryWithVector]
      constructor
      · intro hc
        rcases List.mem_append.mp hc with hc | hc
        · exact hx hc
        · rw [List.mem_singleton] at hc
          exact absurd hc (ne_of_lt hlt)
      · exact lt_trans hlt (lt_add_one _)
  | update id e vec now =>
    rcases hcur : alookup id s.entries with _ | current
    · simp only [applyOp, updateEntryWithVector, hcur]
      exact ⟨hx, hlt⟩
    · have hmem : id ∈ s.ids := by
        apply hWF.keys_sub
        rw [← alookup_isSome_iff_mem, hcur]
        rfl
      obtain ⟨j, hj1, _, _⟩ := idIndex_of_mem hmem
      simp only [applyOp, updateEntryWithVector, hcur, hj1]
      exact ⟨hx, hlt⟩
  | delete id =>
    by_cases h : (alookup id s.entries).isSome
    · simp only [applyOp]
      rw [deleteEntry_ids_of_present h hWF.vecLen, deleteEntry_of_present h]
      refine ⟨?_, hlt⟩
      intro hc
      rw [List.mem_filter] at hc
      exact hx hc.1
    · simp only [applyOp]
      rw [deleteEntry_of_absent h]
      exact ⟨hx, hlt⟩
  | umeta id patch replace now =>
    rcases hcur : alookup id s.entries with _ | entry <;>
      simp only [applyOp, updateEntryMetadata, hcur] <;> exact ⟨hx, hlt⟩
  | dmeta id keys now =>
    rcases hcur : alookup id s.entries with _ | entry <;>
      simp only [applyOp, deleteEntryMetadata, hcur] <;> exact ⟨hx, hlt⟩

theorem fresh_foldOps (ops : List Op) (s : inMemoryStore) (x : ℤ)
    (hWF : WF s) (hx : x ∉ s.ids) (hlt : x < s.nextID) :
    WF (ops.foldl applyOp s) ∧ x ∉ (ops.foldl applyOp s).ids ∧
      x < (ops.foldl applyOp s).nextID := by
  induction ops generalizing s with
  | nil => exact ⟨hWF, hx, hlt⟩
  | cons op rest ih =>
    obtain ⟨h1, h2⟩ := fresh_applyOp s op x hWF hx hlt
    exact ih (applyOp s op) (wf_applyOp s op hWF) h1 h2

theorem delete_success_state (s : inMemoryStore) (id : ℤ) (hWF : WF s)
    (hok : (deleteEntry s id).2 = .ok ()) :
    WF (deleteEntry s id).1 ∧ id ∉ (deleteEntry s id).1.ids ∧
      id < (deleteEntry s id).1.nextID := by
  by_cases h : (alookup id s.entries).isSome
  · refine ⟨wf_delete s id hWF, ?_, ?_⟩
    · rw [deleteEntry_ids_of_present h hWF.vecLen]
      intro hc
      rw [List.mem_filter] at hc
      simp at hc
    · rw [deleteEntry_of_present h]
      have hmem : id ∈ s.ids := by
        apply hWF.keys_sub
        rwa [← alookup_isSome_iff_mem]
      exact hWF.ids_lt _ hmem
  · rw [deleteEntry_of_absent h] at hok
    simp at hok

/-! ## The sweep never removes an entry the cutoff rule spares -/

theorem purge_fold_keeps (cutoff : ℤ) (e : Entry)
    (he : entryExpiredAt (some e) cutoff = false) :
    ∀ (l : List ℤ) (acc : inMemoryStore × ℕ) (id : ℤ), WF acc.1 →
      alookup id acc.1.entries = some e → id ∈ acc.1.ids →
      WF (l.foldl (purgeStep cutoff) acc).1 ∧
        alookup id (l.foldl (purgeStep cutoff) acc).1.entries = some e ∧
        id ∈ (l.foldl (purgeStep cutoff) acc).1.ids := by
  intro l
  induction l with
  | nil => exact fun acc id hWF h1 h2 => ⟨hWF, h1, h2⟩
  | cons j rest ih =>
    intro acc id hWF h1 h2
    rcases hgj : alookup j acc.1.entries with _ | ej
    · have hstep : purgeStep cutoff acc j = acc := by
        simp [purgeStep, getEntry, hgj]
      rw [List.foldl_cons, hstep]
      exact ih acc id hWF h1 h2
    · by_cases hexp : entryExpiredAt (some ej) cutoff = true
      · have hne : j ≠ id := by
          intro hc
          subst hc
          rw [h1] at hgj
          cases hgj
          rw [he] at hexp
          cases hexp
        have hstep : purgeStep cutoff acc j = ((deleteEntry acc.1 j).1, acc.2 + 1) := by
          simp [purgeStep, getEntry, hgj, hexp]
        rw [List.foldl_cons, hstep]
        have hpres : (alookup j acc.1.entries).isSome := by rw [hgj]; rfl
        apply ih
        · exact wf_delete acc.1 j hWF
        · rw [deleteEntry_of_present hpres]
          exact (alookup_aerase_ne (Ne.symm hne)).trans h1
        · rw [deleteEntry_ids_of_present hpres hWF.vecLen, List.mem_filter]
          exact ⟨h2, by simp [Ne.symm hne]⟩
      · have hstep : purgeStep cutoff acc j = acc := by
          simp only [purgeStep, getEntry, hgj]
          rw [Bool.not_eq_true] at hexp
          rw [hexp]
          rfl
        rw [List.foldl_cons, hstep]
        exact ih acc id hWF h1 h2

/-! ## The selection loop of `SearchByVector` -/

theorem foldl_min_spec (f : ℕ → ℝ) :
    ∀ (js : List ℕ) (m0 : ℕ),
      (js.foldl (fun m j => if f j < f m then j else m) m0 = m0 ∨
        js.foldl (fun m j => if f j < f m then j else m) m0 ∈ js) ∧
      f (js.foldl (fun m j => if f j < f m then j else m) m0) ≤ f m0 ∧
      ∀ j ∈ js, f (js.foldl (fun m j => if f j < f m then j else m) m0) ≤ f j := by
  intro js
  induction js with
  | nil => exact fun m0 => ⟨Or.inl rfl, le_refl _, fun j hj => absurd hj (List.not_mem_nil j)⟩
  | cons j0 rest ih =>
    intro m0
    simp only [List.foldl_cons]
    obtain ⟨ihm, ihle, ihall⟩ := ih (if f j0 < f m0 then j0 else m0)
    have hle0 : f (if f j0 < f m0 then j0 else m0) ≤ f m0 := by
      by_cases hc : f j0 < f m0
      · rw [if_pos hc]; exact le_of_lt hc
      · rw [if_neg hc]
    have hlej0 : f (if f j0 < f m0 then j0 else m0) ≤ f j0 := by
      by_cases hc : f j0 < f m0
      · rw [if_pos hc]
      · rw [if_neg hc]; exact le_of_not_lt hc
    refine ⟨?_, le_trans ihle hle0, ?_⟩
    · rcases ihm with h | h
      · rw [h]
        by_cases hc : f j0 < f m0
        · rw [if_pos hc]; exact Or.inr (List.mem_cons_self _ _)
        · rw [if_neg hc]; exact Or.inl rfl
      · exact Or.inr (List.mem_cons_of_mem _ h)
    · intro j hj
      rcases List.mem_cons.mp hj with hj | hj
      · subst hj; exact le_trans ihle hlej0
      · exact ihall j hj

theorem minIdxGo_lt_length {sel : List (ℕ × ℝ)} (h : sel ≠ []) :
    minIdxGo sel < sel.length := by
  have hpos : 0 < sel.length := List.length_pos.mpr h
  obtain ⟨hm, _, _⟩ := foldl_min_spec (fun i => (sel.getD i (0, 0)).2)
    (List.range' 1 (sel.length - 1)) 0
  unfold minIdxGo
  rcases hm with hm | hm
  · rw [hm]; exact hpos
  · rw [List.mem_range'] at hm
    obtain ⟨t, ht, hts⟩ := hm
    rw [hts]
    omega

theorem minIdxGo_min {sel : List (ℕ × ℝ)} (h : sel ≠ []) :
    ∀ j < sel.length, (sel.getD (minIdxGo sel) (0, 0)).2 ≤ (sel.getD j (0, 0)).2 := by
  have hpos : 0 < sel.length := List.length_pos.mpr h
  obtain ⟨_, hle0, hall⟩ := foldl_min_spec (fun i => (sel.getD i (0, 0)).2)
    (List.range' 1 (sel.length - 1)) 0
  intro j hj
  rcases Nat.eq_zero_or_pos j with hj0 | hj0
  · subst hj0; exact hle0
  · exact hall j (by rw [List.mem_range']; exact ⟨j - 1, by omega, by omega⟩)

theorem nodup_set_of_forall_ne {a : ℕ} :
    ∀ (l : List ℕ) (m : ℕ), l.Nodup → (∀ x ∈ l, x ≠ a) → (l.set m a).Nodup := by
  intro l
  induction l with
  | nil => intro m _ _; simp
  | cons x rest ih =>
    intro m hn ha
    cases m with
    | zero =>
      simp only [List.set_cons_zero, List.nodup_cons]
      refine ⟨?_, (List.nodup_cons.mp hn).2⟩
      intro hc
      exact ha a (List.mem_cons_of_mem _ hc) rfl
    | succ m =>
      simp only [List.set_cons_succ, List.nodup_cons]
      refine ⟨?_, ih m (List.nodup_cons.mp hn).2
        (fun x hx => ha x (List.mem_cons_of_mem _ hx))⟩
      intro hc
      rcases List.mem_or_eq_of_mem_set hc with hc | hc
      · exact (List.nodup_cons.mp hn).1 hc
      · exact ha x (List.mem_cons_self _ _) hc

/-- Invariant of the selection loop after the first `i` scores were offered:
the working set holds `min limit i` slots, each slot records an index below
`i` with its score, slots are pairwise distinct, and every unselected score
is at most every selected one. -/
def SelInv (val : ℕ → ℝ) (limit i : ℕ) (sel : List (ℕ × ℝ)) : Prop :=
  sel.length = min limit i ∧
  (∀ p ∈ sel, p.1 < i ∧ p.2 = val p.1) ∧
  (sel.map Prod.fst).Nodup ∧
  (∀ j, j < i → (∀ p ∈ sel, p.1 ≠ j) → ∀ p ∈ sel, val j ≤ p.2)

theorem selStep_inv {val : ℕ → ℝ} {limit i : ℕ} {sel : List (ℕ × ℝ)}
    (h : SelInv val limit i sel) :
    SelInv val limit (i + 1) (selStep limit sel i (val i)) := by
  obtain ⟨h1, h2, h3, h4⟩ := h
  by_cases hfits : sel.length < limit
  · -- append phase: the working set is still filling up
    have hlen : sel.length = i ∧ i < limit := by
      rcases Nat.le_total limit i with hc | hc
      · rw [Nat.min_eq_left hc] at h1
        omega
      · rw [Nat.min_eq_right hc] at h1
        omega
    have hstep : selStep limit sel i (val i) = sel ++ [(i, val i)] := by
      unfold selStep
      rw [if_pos hfits]
    rw [hstep]
    refine ⟨?_, ?_, ?_, ?_⟩
    · simp only [List.length_append, List.length_singleton, h1]
      rcases Nat.le_total limit i with hc | hc
      · omega
      · rw [Nat.min_eq_right hc, Nat.min_eq_right (by omega)]
    · intro p hp
      rcases List.mem_append.mp hp with hp | hp
      · exact ⟨lt_trans (h2 p hp).1 (lt_add_one _), (h2 p hp).2⟩
      · rw [List.mem_singleton] at hp
        subst hp
        exact ⟨lt_add_one _, rfl⟩
    · rw [List.map_append, List.nodup_append]
      refine ⟨h3, by simp, ?_⟩
      intro x hx hx'
      simp only [List.map_cons, List.map_nil, List.mem_singleton] at hx'
      obtain ⟨p, hp, hpx⟩ := List.mem_map.mp hx
      subst hpx hx'
      exact absurd (h2 p hp).1 (lt_irrefl _)
    · -- every index below i is already selected, so exclusion is impossible
      intro j hj hexc
      exfalso
      have hcomplete : ∀ t < i, t ∈ sel.map Prod.fst := by
        have hlenf : (sel.map Prod.fst).length = i := by
          rw [List.length_map, hlen.1]
        intro t ht
        apply mem_of_nodup_length_lt h3
        · intro x hx
          obtain ⟨p, hp, hpx⟩ := List.mem_map.mp hx
          rw [hlenf, ← hpx]
          exact (h2 p hp).1
        · rw [hlenf]
          exact ht
      have hji : j ≠ i := by
        intro hc
        subst hc
        exact hexc (j, val j) (List.mem_append_right _ (List.mem_singleton_self _)) rfl
      have hj' : j < i := by omega
      obtain ⟨p, hp, hpj⟩ := List.mem_map.mp (hcomplete j hj')
      exact hexc p (List.mem_append_left _ hp) hpj
  · -- replacement phase: the working set is full
    have hlim_le : limit ≤ sel.length := le_of_not_lt hfits
    have hsel_len : sel.length = limit := by
      rcases Nat.le_total limit i with hc | hc
      · rw [Nat.min_eq_left hc] at h1; exact h1
      · rw [Nat.min_eq_right hc] at h1; omega
    have hlim_le_i : limit ≤ i := by
      rcases Nat.le_total limit i with hc | hc
      · exact hc
      · rw [Nat.min_eq_right hc] at h1; omega
    have hmin_eq : min limit (i + 1) = limit := Nat.min_eq_left (by omega)
    by_cases hpos : 0 < limit
    case neg =>
      -- a zero cap: the working set is empty and stays empty
      have hl0 : limit = 0 := by omega
      have hempty : sel = [] := by
        rw [← List.length_eq_zero]
        omega
      have hstep : selStep limit sel i (val i) = [] := by
        unfold selStep
        rw [if_neg hfits, hempty]
        simp
      rw [hstep]
      exact ⟨by simp [hl0], by simp, by simp,
        fun j _ _ p hp => absurd hp (List.not_mem_nil p)⟩
    have hne : sel ≠ [] := by
      intro hc
      rw [hc] at hsel_len
      simp at hsel_len
      omega
    have hm : minIdxGo sel < sel.length := minIdxGo_lt_length hne
    have hmem_m : sel.getD (minIdxGo sel) (0, 0) ∈ sel := by
      rw [List.getD_eq_getElem _ _ hm]
      exact List.getElem_mem hm
    by_cases hbeat : (sel.getD (minIdxGo sel) (0, 0)).2 < val i
    · -- the new score evicts the current minimum
      have hstep : selStep limit sel i (val i) = sel.set (minIdxGo sel) (i, val i) := by
        unfold selStep
        rw [if_neg hfits]
        simp only
        rw [if_pos hbeat]
      rw [hstep]
      have hmem_new : (i, val i) ∈ sel.set (minIdxGo sel) (i, val i) := by
        have hm' : minIdxGo sel < (sel.set (minIdxGo sel) (i, val i)).length := by
          rw [List.length_set]; exact hm
        have hg : (sel.set (minIdxGo sel) (i, val i))[minIdxGo sel] = (i, val i) :=
          List.getElem_set_self hm'
        nth_rewrite 2 [← hg]
        exact List.getElem_mem hm'
      refine ⟨?_, ?_, ?_, ?_⟩
      · rw [List.length_set, hsel_len, hmin_eq]
      · intro p hp
        rcases List.mem_or_eq_of_mem_set hp with hp | hp
        · exact ⟨lt_trans (h2 p hp).1 (lt_add_one _), (h2 p hp).2⟩
        · subst hp
          exact ⟨lt_add_one _, rfl⟩
      · rw [List.map_set]
        apply nodup_set_of_forall_ne _ _ h3
        intro x hx
        obtain ⟨p, hp, hpx⟩ := List.mem_map.mp hx
        rw [← hpx]
        exact ne_of_lt (h2 p hp).1
      · intro j hj hexc
        have hji : j ≠ i := fun hc => hexc (i, val i) hmem_new (hc ▸ rfl)
        have hj' : j < i := by omega
        by_cases hjin : ∀ p ∈ sel, p.1 ≠ j
        · have hold := h4 j hj' hjin
          intro p hp
          rcases List.mem_or_eq_of_mem_set hp with hp | hp
          · exact hold p hp
          · subst hp
            exact le_of_lt (lt_of_le_of_lt (hold _ hmem_m) hbeat)
        · push_neg at hjin
          obtain ⟨q, hq, hqj⟩ := hjin
          obtain ⟨t, ht, hts⟩ := List.mem_iff_getElem.mp hq
          have htm : t = minIdxGo sel := by
            by_contra hne'
            have ht' : t < (sel.set (minIdxGo sel) (i, val i)).length := by
              rw [List.length_set]; exact ht
            have : (sel.set (minIdxGo sel) (i, val i))[t] = sel[t] :=
              List.getElem_set_ne (Ne.symm hne') ht'
            rw [hts] at this
            exact hexc q (this ▸ List.getElem_mem ht') hqj
          subst htm
          have hqm : q = sel.getD (minIdxGo sel) (0, 0) := by
            rw [List.getD_eq_getElem _ _ hm]
            exact hts.symm
          have hvj : val j = (sel.getD (minIdxGo sel) (0, 0)).2 := by
            rw [← hqm, (h2 q hq).2, hqj]
          intro p hp
          rcases List.mem_or_eq_of_mem_set hp with hp | hp
          · obtain ⟨t', ht', hts'⟩ := List.mem_iff_getElem.mp hp
            have := minIdxGo_min hne t' ht'
            rw [List.getD_eq_getElem _ _ ht', hts'] at this
            rw [hvj]
            exact this
          · subst hp
            rw [hvj]
            exact le_of_lt hbeat
    · -- the new score does not beat the minimum: nothing changes
      have hstep : selStep limit sel i (val i) = sel := by
        unfold selStep
        rw [if_neg hfits]
        simp only
        rw [if_neg hbeat]
      rw [hstep]
      refine ⟨by rw [hsel_len, hmin_eq], ?_, h3, ?_⟩
      · exact fun p hp => ⟨lt_trans (h2 p hp).1 (lt_add_one _), (h2 p hp).2⟩
      · intro j hj hexc
        rcases Nat.lt_succ_iff_lt_or_eq.mp hj with hj' | hj'
        · exact h4 j hj' hexc
        · subst hj'
          intro p hp
          obtain ⟨t, ht, hts⟩ := List.mem_iff_getElem.mp hp
          have hmin := minIdxGo_min hne t ht
          rw [List.getD_eq_getElem _ _ ht, hts] at hmin
          exact le_trans (le_of_not_lt hbeat) hmin

theorem selLoop_inv {val : ℕ → ℝ} {limit : ℕ} :
    ∀ (scores : List ℝ) (sel : List (ℕ × ℝ)) (i : ℕ),
      (∀ t (ht : t < scores.length), scores[t] = val (i + t)) →
      SelInv val limit i sel →
      SelInv val limit (i + scores.length) (selLoop limit sel i scores) := by
  intro scores
  induction scores with
  | nil => intro sel i _ h; simpa using h
  | cons sc rest ih =>
    intro sel i hs h
    have hsc : sc = val i := by
      have := hs 0 (by simp)
      simpa using this
    have hstep : selLoop limit sel i (sc :: rest) =
        selLoop limit (selStep limit sel i (val i)) (i + 1) rest := by
      rw [selLoop, hsc]
    rw [hstep]
    have hrest : ∀ t (ht : t < rest.length), rest[t] = val ((i + 1) + t) := by
      intro t ht
      have := hs (t + 1) (by simpa using Nat.succ_lt_succ ht)
      simpa [Nat.add_assoc, Nat.add_comm 1 t] using this
    have := ih (selStep limit sel i (val i)) (i + 1) hrest (selStep_inv h)
    have harith : (i + 1) + rest.length = i + (rest.length + 1) := by omega
    rw [harith] at this
    simpa using this

theorem sel_final_spec {limit : ℕ} {val : ℕ → ℝ} {scores : List ℝ}
    (hs : ∀ t (ht : t < scores.length), scores[t] = val t) :
    SelInv val limit scores.length (selLoop limit [] 0 scores) := by
  have hinit : SelInv val limit 0 [] := by
    refine ⟨by simp, by simp, by simp, ?_⟩
    intro j hj
    omega
  have := selLoop_inv scores [] 0 (by simpa using hs) hinit
  simpa using this

/-- The cosine score of the vector stored at slot `j` against a query. -/
noncomputable def slotScore (s : inMemoryStore) (vec : List ℚ) (j : ℕ) : ℝ :=
  cosine vec (s.vectors.getD j [])

/-- The cosine score a stored id earns against a query: the score of the
vector stored at that id's slot in the lockstep index. -/
noncomputable def idScore (s : inMemoryStore) (vec : List ℚ) (b : ℤ) : ℝ :=
  cosine vec (s.vectors.getD ((idIndex b s.ids).getD 0) [])

theorem searchCore_spec (s : inMemoryStore) (vec : List ℚ) (lim : ℕ)
    (hWF : WF s) (_hlim : 0 < lim) :
    ((selLoop lim [] 0 (s.vectors.map (fun v => cosine vec v))).map
        (fun p => s.ids.getD p.1 0)).length =
      ((selLoop lim [] 0 (s.vectors.map (fun v => cosine vec v))).map
        (fun p => p.2)).length ∧
    ((selLoop lim [] 0 (s.vectors.map (fun v => cosine vec v))).map
        (fun p => s.ids.getD p.1 0)).length = min lim s.ids.length ∧
    (∀ t, t < ((selLoop lim [] 0 (s.vectors.map (fun v => cosine vec v))).map
        (fun p => s.ids.getD p.1 0)).length →
      ∃ i, i < s.ids.length ∧
        ((selLoop lim [] 0 (s.vectors.map (fun v => cosine vec v))).map
          (fun p => s.ids.getD p.1 0)).getD t 0 = s.ids.getD i 0 ∧
        ((selLoop lim [] 0 (s.vectors.map (fun v => cosine vec v))).map
          (fun p => p.2)).getD t 0 = cosine vec (s.vectors.getD i [])) ∧
    ((selLoop lim [] 0 (s.vectors.map (fun v => cosine vec v))).map
        (fun p => s.ids.getD p.1 0)).Nodup ∧
    (∀ a ∈ (selLoop lim [] 0 (s.vectors.map (fun v => cosine vec v))).map
        (fun p => s.ids.getD p.1 0), a ∈ s.ids) ∧
    (∀ a ∈ (selLoop lim [] 0 (s.vectors.map (fun v => cosine vec v))).map
        (fun p => s.ids.getD p.1 0),
      ∀ b ∈ s.ids, b ∉ (selLoop lim [] 0 (s.vectors.map (fun v => cosine vec v))).map
        (fun p => s.ids.getD p.1 0) → idScore s vec b ≤ idScore s vec a) ∧
    (s.ids.length ≤ lim → ∀ b ∈ s.ids,
      b ∈ (selLoop lim [] 0 (s.vectors.map (fun v => cosine vec v))).map
        (fun p => s.ids.getD p.1 0)) := by
  have hst : ∀ t (ht : t < (s.vectors.map (fun v => cosine vec v)).length),
      (s.vectors.map (fun v => cosine vec v))[t] = slotScore s vec t := by
    intro t ht
    have ht' : t < s.vectors.length := by simpa using ht
    rw [List.getElem_map, slotScore, List.getD_eq_getElem _ _ ht']
  have hsel0 := @sel_final_spec lim (slotScore s vec)
    (s.vectors.map (fun v => cosine vec v)) hst
  set sel := selLoop lim [] 0 (s.vectors.map (fun v => cosine vec v)) with hselDef
  have hn : (s.vectors.map (fun v => cosine vec v)).length = s.ids.length := by
    simp [hWF.vecLen]
  rw [hn] at hsel0
  obtain ⟨H1, H2, H3, H4⟩ := hsel0
  have hselNodup : sel.Nodup := List.Nodup.of_map Prod.fst H3
  refine ⟨by simp, ?_, ?_, ?_, ?_, ?_, ?_⟩
  · rw [List.length_map, H1]
  · -- index alignment
    intro t ht
    rw [List.length_map] at ht
    have hp : sel[t] ∈ sel := List.getElem_mem ht
    refine ⟨sel[t].1, (H2 _ hp).1, ?_, ?_⟩
    · rw [List.getD_eq_getElem _ _ (by rw [List.length_map]; exact ht),
        List.getElem_map]
    · rw [List.getD_eq_getElem _ _ (by rw [List.length_map]; exact ht),
        List.getElem_map, (H2 _ hp).2]
      rw [slotScore]
  · -- distinct output ids
    rw [List.nodup_map_iff_inj_on hselNodup]
    intro p hp q hq heq
    have hp1 : p.1 < s.ids.length := (H2 p hp).1
    have hq1 : q.1 < s.ids.length := (H2 q hq).1
    rw [List.getD_eq_getElem _ _ hp1, List.getD_eq_getElem _ _ hq1] at heq
    have h11 : p.1 = q.1 := (hWF.idsNodup.getElem_inj_iff).mp heq
    exact (List.nodup_map_iff_inj_on hselNodup).mp H3 p hp q hq h11
  · -- output ids are stored ids
    intro a ha
    obtain ⟨p, hp, hpa⟩ := List.mem_map.mp ha
    rw [← hpa, List.getD_eq_getElem _ _ (H2 p hp).1]
    exact List.getElem_mem _
  · -- every unselected stored id scores no higher than any selected one
    intro a ha b hb hbnot
    obtain ⟨pa, hpa, hfa⟩ := List.mem_map.mp ha
    have hpa1 : pa.1 < s.ids.length := (H2 pa hpa).1
    have hidxa : idIndex a s.ids = some pa.1 := by
      rw [← hfa]
      exact idIndex_getD_of_nodup hWF.idsNodup hpa1
    have hscore_a : idScore s vec a = pa.2 := by
      rw [idScore, hidxa, Option.getD_some, (H2 pa hpa).2, slotScore]
    obtain ⟨jb, hjb1, hjb2, hjb3⟩ := idIndex_of_mem hb
    have hexc : ∀ q ∈ sel, q.1 ≠ jb := by
      intro q hq hcq
      apply hbnot
      rw [← hjb3, ← hcq]
      exact List.mem_map.mpr ⟨q, hq, rfl⟩
    have hmin := H4 jb hjb2 hexc pa hpa
    have hscore_b : idScore s vec b = slotScore s vec jb := by
      rw [idScore, hjb1, Option.getD_some, slotScore]
    rw [hscore_a, hscore_b]
    exact hmin
  · -- a cap at least the store size selects everything
    intro hge b hb
    have hlenf : (sel.map Prod.fst).length = s.ids.length := by
      rw [List.length_map, H1]
      omega
    have hcomp : ∀ j < s.ids.length, j ∈ sel.map Prod.fst := by
      intro j hj
      apply mem_of_nodup_length_lt H3
      · intro x hx
        obtain ⟨p, hp, hpx⟩ := List.mem_map.mp hx
        rw [hlenf, ← hpx]
        exact (H2 p hp).1
      · rw [hlenf]
        exact hj
    obtain ⟨jb, hjb1, hjb2, hjb3⟩ := idIndex_of_mem hb
    obtain ⟨q, hq, hcq⟩ := List.mem_map.mp (hcomp jb hjb2)
    refine List.mem_map.mpr ⟨q, hq, ?_⟩
    rw [hcq, hjb3]

/-- The full statement of the top-k claim for `SearchByVector`, over a
well-formed store: output arrays are index-aligned and of equal length, the
output ids are distinct stored ids, every unselected stored id scores at most
every selected one, the output size is `k` when `0 < k ≤ n` and `n` (with
all ids present) when `k > n`, and a non-positive `k` behaves as the default
cap of 10. -/
def TopKSpec (s : inMemoryStore) (vec : List ℚ) (k : ℤ) : Prop :=
  (searchByVector s vec k).1.length = (searchByVector s vec k).2.length ∧
  (∀ t, t < (searchByVector s vec k).1.length →
    ∃ i, i < s.ids.length ∧
      (searchByVector s vec k).1.getD t 0 = s.ids.getD i 0 ∧
      (searchByVector s vec k).2.getD t 0 = cosine vec (s.vectors.getD i [])) ∧
  (searchByVector s vec k).1.Nodup ∧
  (∀ a ∈ (searchByVector s vec k).1, a ∈ s.ids) ∧
  (∀ a ∈ (searchByVector s vec k).1, ∀ b ∈ s.ids,
    b ∉ (searchByVector s vec k).1 → idScore s vec b ≤ idScore s vec a) ∧
  (0 < k → k ≤ (s.ids.length : ℤ) →
    (searchByVector s vec k).1.length = k.toNat) ∧
  ((s.ids.length : ℤ) < k → (searchByVector s vec k).1.length = s.ids.length ∧
    ∀ b ∈ s.ids, b ∈ (searchByVector s vec k).1) ∧
  (k ≤ 0 → searchByVector s vec k = searchByVector s vec 10)

/-- Claim C1: on a well-formed store, `SearchByVector` returns equal-length,
index-aligned id and score arrays whose ids are exactly a set of `k` distinct
stored ids of maximal cosine score (every unselected id scores no higher than
any selected one), all `n` ids when `k > n`, and with a non-positive `k` it
behaves as with the default cap of 10 (see `TopKSpec`). -/
theorem searchByVector_spec (s : inMemoryStore) (vec : List ℚ) (k : ℤ)
    (hWF : WF s) : TopKSpec s vec k := by
  have hlimpos : 0 < (if k ≤ 0 then (10 : ℕ) else k.toNat) := by
    by_cases hk : k ≤ 0
    · rw [if_pos hk]
      norm_num
    · rw [if_neg hk]
      omega
  have hcore := searchCore_spec s vec (if k ≤ 0 then (10 : ℕ) else k.toNat)
    hWF hlimpos
  obtain ⟨C1, C2, C3, C4, C5, C6, C7⟩ := hcore
  have hres : searchByVector s vec k =
      ((selLoop (if k ≤ 0 then (10 : ℕ) else k.toNat) [] 0
          (s.vectors.map (fun v => cosine vec v))).map (fun p => s.ids.getD p.1 0),
       (selLoop (if k ≤ 0 then (10 : ℕ) else k.toNat) [] 0
          (s.vectors.map (fun v => cosine vec v))).map (fun p => p.2)) := rfl
  have hres1 : (searchByVector s vec k).1 =
      (selLoop (if k ≤ 0 then (10 : ℕ) else k.toNat) [] 0
        (s.vectors.map (fun v => cosine vec v))).map (fun p => s.ids.getD p.1 0) := by
    rw [hres]
  have hres2 : (searchByVector s vec k).2 =
      (selLoop (if k ≤ 0 then (10 : ℕ) else k.toNat) [] 0
        (s.vectors.map (fun v => cosine vec v))).map (fun p => p.2) := by
    rw [hres]
  refine ⟨?_, ?_, ?_, ?_, ?_, ?_, ?_, ?_⟩
  · rw [hres1, hres2]; exact C1
  · rw [hres1, hres2]; exact C3
  · rw [hres1]; exact C4
  · rw [hres1]; exact C5
  · rw [hres1]; exact C6
  · intro hk hkn
    rw [hres1, C2]
    have hlim : (if k ≤ 0 then (10 : ℕ) else k.toNat) = k.toNat := by
      rw [if_neg (by omega)]
    rw [hlim]
    omega
  · intro hkn
    have hk0 : ¬k ≤ 0 := by omega
    have hlim : (if k ≤ 0 then (10 : ℕ) else k.toNat) = k.toNat := by
      rw [if_neg hk0]
    constructor
    · rw [hres1, C2, hlim]
      omega
    · intro b hb
      rw [hres1]
      refine C7 ?_ b hb
      rw [hlim]
      omega
  · intro hk
    simp only [searchByVector]
    rw [if_pos hk, if_neg (by norm_num : ¬(10 : ℤ) ≤ 0)]
    rfl

/-! ## Concrete sample data for witnesses -/

/-- A sample stored entry. -/
def sampleEntry : Entry :=
  { id := 1, prompt := "p", response := "r",
    metadata := some [("a", MVal.num 1), ("b", MVal.num 2)],
    createdAt := 1, updatedAt := 1 }

/-- A sample well-formed one-entry store. -/
def sampleStore : inMemoryStore :=
  { entries := [(1, sampleEntry)], vectors := [[]], ids := [1], nextID := 2 }

/-- An entry whose timestamps were never set. -/
def zeroTimeEntry : Entry :=
  { id := 1, prompt := "p", response := "r", metadata := none,
    createdAt := 0, updatedAt := 0 }

/-- A well-formed store holding only `zeroTimeEntry`. -/
def zeroTimeStore : inMemoryStore :=
  { entries := [(1, zeroTimeEntry)], vectors := [[]], ids := [1], nextID := 2 }

/-! ## The claims -/

/-- Claim C2: for every pair of vectors, if either is empty, or the lengths
differ, or either has zero magnitude (zero sum of squares), the cosine score
is exactly `0`; `cosine` is total, so no error can be raised. -/
theorem cosine_degenerate_zero (a b : List ℚ)
    (h : a.length = 0 ∨ b.length = 0 ∨ a.length ≠ b.length ∨
      sumSq a = 0 ∨ sumSq b = 0) :
    cosine a b = 0 := by
  unfold cosine
  by_cases h1 : a.length = 0 ∨ b.length = 0 ∨ a.length ≠ b.length
  · rw [if_pos h1]
  · rw [if_neg h1]
    have h2 : sumSq a = 0 ∨ sumSq b = 0 := by tauto
    rw [if_pos h2]

/-- Witness for C2 at a concrete length mismatch. -/
theorem cosine_degenerate_zero_witness :
    (([1] : List ℚ).length = 0 ∨ ([1, 2] : List ℚ).length = 0 ∨
      ([1] : List ℚ).length ≠ ([1, 2] : List ℚ).length ∨
      sumSq [1] = 0 ∨ sumSq [1, 2] = 0) ∧
    cosine [1] [1, 2] = 0 :=
  ⟨by decide, cosine_degenerate_zero [1] [1, 2] (by decide)⟩

/-- Claim C8: a zero or negative TTL disables expiration entirely: the lazy
check classifies nothing as expired, lazy eviction deletes nothing, the
active sweep removes nothing, and the janitor loop is not started — for
every entry, store and point in time. -/
theorem nonpositive_ttl_disables_expiry (ttl : ℤ) (h : ttl ≤ 0) :
    (∀ now e, isExpired ttl now e = false) ∧
    (∀ now st e, expireIfNeeded ttl now st e = (st, false)) ∧
    (∀ now st, purgeExpired ttl now st = (st, 0)) ∧
    (∀ hasStop, startJanitor ttl hasStop = false) := by
  have hisExp : ∀ now e, isExpired ttl now e = false := by
    intro now e
    unfold isExpired
    rw [if_pos h]
  refine ⟨hisExp, ?_, ?_, ?_⟩
  · intro now st e
    unfold expireIfNeeded
    rw [hisExp]
    simp
  · intro now st
    unfold purgeExpired
    rw [if_pos h]
  · intro hasStop
    unfold startJanitor
    rw [if_pos (Or.inl h)]

/-- Witness for C8 at TTL zero. -/
theorem nonpositive_ttl_disables_expiry_witness :
    isExpired 0 5 (some sampleEntry) = false ∧
    expireIfNeeded 0 5 sampleStore (some sampleEntry) = (sampleStore, false) ∧
    purgeExpired 0 5 sampleStore = (sampleStore, 0) ∧
    startJanitor 0 true = false :=
  ⟨(nonpositive_ttl_disables_expiry 0 (by decide)).1 5 (some sampleEntry),
   (nonpositive_ttl_disables_expiry 0 (by decide)).2.1 5 sampleStore (some sampleEntry),
   (nonpositive_ttl_disables_expiry 0 (by decide)).2.2.1 5 sampleStore,
   (nonpositive_ttl_disables_expiry 0 (by decide)).2.2.2 true⟩

/-- Claim C10: with a positive TTL, an entry whose `createdAt` and
`updatedAt` are both unset is never classified as expired by the cutoff
rule, so neither the lazy read-time check nor the active sweep evicts it. -/
theorem zero_timestamps_never_expire (ttl now : ℤ) (e : Entry)
    (st : inMemoryStore) (httl : 0 < ttl) (hc : e.createdAt = 0)
    (hu : e.updatedAt = 0) (hWF : WF st) :
    entryExpiredAt (some e) (now - ttl) = false ∧
    isExpired ttl now (some e) = false ∧
    expireIfNeeded ttl now st (some e) = (st, false) ∧
    (∀ id, alookup id st.entries = some e → id ∈ st.ids →
      alookup id (purgeExpired ttl now st).1.entries = some e ∧
      id ∈ allIDs (purgeExpired ttl now st).1) := by
  have hexp : ∀ cutoff, entryExpiredAt (some e) cutoff = false := by
    intro cutoff
    unfold entryExpiredAt
    simp [hu, hc]
  have hisExp : isExpired ttl now (some e) = false := by
    unfold isExpired
    rw [if_neg (by omega), hexp]
  refine ⟨hexp _, hisExp, ?_, ?_⟩
  · unfold expireIfNeeded
    rw [hisExp]
    simp
  · intro id h1 h2
    unfold purgeExpired
    rw [if_neg (by omega)]
    have hkeep := purge_fold_keeps (now - ttl) e (hexp _) (allIDs st) (st, 0)
      id hWF h1 h2
    exact ⟨hkeep.2.1, hkeep.2.2⟩

/-- Witness for C10 on a concrete zero-timestamp entry. -/
theorem zero_timestamps_never_expire_witness :
    entryExpiredAt (some zeroTimeEntry) (100 - 7) = false ∧
    isExpired 7 100 (some zeroTimeEntry) = false ∧
    expireIfNeeded 7 100 zeroTimeStore (some zeroTimeEntry) = (zeroTimeStore, false) ∧
    (alookup 1 (purgeExpired 7 100 zeroTimeStore).1.entries = some zeroTimeEntry ∧
      1 ∈ allIDs (purgeExpired 7 100 zeroTimeStore).1) := by
  have H := zero_timestamps_never_expire 7 100 zeroTimeEntry zeroTimeStore
    (by decide) rfl rfl (by decide)
  exact ⟨H.1, H.2.1, H.2.2.1, H.2.2.2 1 (by decide) (by decide)⟩

/-- Claim C9: creating an entry with a fresh (zero) `createdAt` and
immediately reading back the returned id yields a record with the same
prompt, response and metadata, and with `createdAt = updatedAt`. -/
theorem create_getEntry_roundtrip (s : inMemoryStore) (e : Entry)
    (vec : List ℚ) (now : ℤ) (h0 : e.createdAt = 0) :
    (createEntryWithVector s (some e) vec now).2 = Except.ok s.nextID ∧
    ∃ rec, getEntry (createEntryWithVector s (some e) vec now).1 s.nextID =
        Except.ok rec ∧
      rec.prompt = e.prompt ∧ rec.response = e.response ∧
      rec.metadata = e.metadata ∧ rec.createdAt = rec.updatedAt := by
  have hlook : alookup s.nextID (createEntryWithVector s (some e) vec now).1.entries =
      some { e with id := s.nextID,
                    createdAt := if e.createdAt = 0 then now else e.createdAt,
                    updatedAt := now } :=
    alookup_aset_self _ _ _
  refine ⟨rfl, ⟨Entry.mk s.nextID e.prompt e.response e.metadata
    (if e.createdAt = 0 then now else e.createdAt) now, ?_, rfl, rfl, rfl, ?_⟩⟩
  · unfold getEntry
    rw [hlook]
  · simp [h0]

/-- Witness for C9 on the sample store. -/
theorem create_getEntry_roundtrip_witness :
    (createEntryWithVector sampleStore (some zeroTimeEntry) [] 9).2 =
      Except.ok sampleStore.nextID ∧
    ∃ rec, getEntry (createEntryWithVector sampleStore (some zeroTimeEntry) [] 9).1
        sampleStore.nextID = Except.ok rec ∧
      rec.prompt = zeroTimeEntry.prompt ∧ rec.response = zeroTimeEntry.response ∧
      rec.metadata = zeroTimeEntry.metadata ∧ rec.createdAt = rec.updatedAt :=
  create_getEntry_roundtrip sampleStore zeroTimeEntry [] 9 rfl

/-- Claim C6: updating a stored entry (whose creation time is set — the Go
clock never returns the zero time) keeps `createdAt`, refreshes `updatedAt`
to `now` (which never decreases it under a monotone clock), and replaces
prompt, response and the stored vector. -/
theorem updateEntryWithVector_preserves_identity (s : inMemoryStore) (id : ℤ)
    (e : Entry) (vec : List ℚ) (now : ℤ) (current : Entry) (hWF : WF s)
    (hcur : alookup id s.entries = some current)
    (hc0 : current.createdAt ≠ 0) (hmono : current.updatedAt ≤ now) :
    (updateEntryWithVector s id e vec now).2 = Except.ok () ∧
    ∃ rec, alookup id (updateEntryWithVector s id e vec now).1.entries = some rec ∧
      rec.createdAt = current.createdAt ∧ rec.updatedAt = now ∧
      current.updatedAt ≤ rec.updatedAt ∧
      rec.prompt = e.prompt ∧ rec.response = e.response ∧ rec.id = id ∧
      (updateEntryWithVector s id e vec now).1.ids = s.ids ∧
      ∃ j, idIndex id s.ids = some j ∧ j < s.ids.length ∧
        (updateEntryWithVector s id e vec now).1.vectors.getD j [] = vec := by
  have hmem : id ∈ s.ids := by
    apply hWF.keys_sub
    rw [← alookup_isSome_iff_mem, hcur]
    rfl
  obtain ⟨j, hj1, hj2, _⟩ := idIndex_of_mem hmem
  set E := Entry.mk id e.prompt e.response e.metadata
    (if current.createdAt ≠ 0 then current.createdAt
     else if e.createdAt = 0 then now else e.createdAt) now with hE
  have hshape : updateEntryWithVector s id e vec now =
      ({ s with entries := aset s.entries id E,
                vectors := s.vectors.set j vec }, Except.ok ()) := by
    unfold updateEntryWithVector
    rw [hcur, hj1]
  constructor
  · rw [hshape]
  · refine ⟨E, ?_, ?_, rfl, hmono, rfl, rfl, rfl, ?_, j, hj1, hj2, ?_⟩
    · rw [hshape]
      exact alookup_aset_self _ _ _
    · show (if current.createdAt ≠ 0 then current.createdAt
        else if e.createdAt = 0 then now else e.createdAt) = current.createdAt
      rw [if_pos hc0]
    · rw [hshape]
    · rw [hshape]
      have hjv : j < s.vectors.length := by
        rw [hWF.vecLen]
        exact hj2
      have hjv' : j < (s.vectors.set j vec).length := by
        rw [List.length_set]
        exact hjv
      rw [List.getD_eq_getElem _ _ hjv']
      exact List.getElem_set_self _

/-- Witness for C6 on the sample store. -/
theorem updateEntryWithVector_preserves_identity_witness :
    (updateEntryWithVector sampleStore 1 zeroTimeEntry [] 5).2 = Except.ok () ∧
    ∃ rec, alookup 1 (updateEntryWithVector sampleStore 1 zeroTimeEntry [] 5).1.entries =
        some rec ∧
      rec.createdAt = sampleEntry.createdAt ∧ rec.updatedAt = 5 ∧
      sampleEntry.updatedAt ≤ rec.updatedAt ∧
      rec.prompt = zeroTimeEntry.prompt ∧ rec.response = zeroTimeEntry.response ∧
      rec.id = 1 ∧
      (updateEntryWithVector sampleStore 1 zeroTimeEntry [] 5).1.ids = sampleStore.ids ∧
      ∃ j, idIndex 1 sampleStore.ids = some j ∧ j < sampleStore.ids.length ∧
        (updateEntryWithVector sampleStore 1 zeroTimeEntry [] 5).1.vectors.getD j [] = [] :=
  updateEntryWithVector_preserves_identity sampleStore 1 zeroTimeEntry [] 5
    sampleEntry (by decide) (by decide) (by decide) (by decide)

/-- Claim C7: the metadata-only operations succeed on a present id, stamp
`updatedAt`, and change nothing else: prompt, response, id, `createdAt`, the
id slice, the vector index, the `nextID` counter, and every other entry are
untouched. -/
theorem metadata_ops_touch_only_metadata (s : inMemoryStore) (id now : ℤ)
    (entry : Entry) (patch : Option (List (String × MVal))) (replace : Bool)
    (keys : List String) (hcur : alookup id s.entries = some entry) :
    ((updateEntryMetadata s id patch replace now).2 = Except.ok () ∧
      (updateEntryMetadata s id patch replace now).1.ids = s.ids ∧
      (updateEntryMetadata s id patch replace now).1.vectors = s.vectors ∧
      (updateEntryMetadata s id patch replace now).1.nextID = s.nextID ∧
      (∃ rec, alookup id (updateEntryMetadata s id patch replace now).1.entries =
          some rec ∧
        rec.prompt = entry.prompt ∧ rec.response = entry.response ∧
        rec.id = entry.id ∧ rec.createdAt = entry.createdAt ∧
        rec.updatedAt = now) ∧
      (∀ other, other ≠ id →
        alookup other (updateEntryMetadata s id patch replace now).1.entries =
          alookup other s.entries)) ∧
    ((deleteEntryMetadata s id keys now).2 = Except.ok () ∧
      (deleteEntryMetadata s id keys now).1.ids = s.ids ∧
      (deleteEntryMetadata s id keys now).1.vectors = s.vectors ∧
      (deleteEntryMetadata s id keys now).1.nextID = s.nextID ∧
      (∃ rec, alookup id (deleteEntryMetadata s id keys now).1.entries = some rec ∧
        rec.prompt = entry.prompt ∧ rec.response = entry.response ∧
        rec.id = entry.id ∧ rec.createdAt = entry.createdAt ∧
        rec.updatedAt = now) ∧
      (∀ other, other ≠ id →
        alookup other (deleteEntryMetadata s id keys now).1.entries =
          alookup other s.entries)) := by
  set E1 := Entry.mk entry.id entry.prompt entry.response
    (if replace then
      (match patch with
       | none => none
       | some m => some m)
     else some (mergeMeta (entry.metadata.getD []) (patch.getD [])))
    entry.createdAt now with hE1
  set E2 := Entry.mk entry.id entry.prompt entry.response
    (if keys = [] then none
     else
      (match entry.metadata with
       | none => none
       | some m => some (keys.foldl (fun acc k => aerase acc k) m)))
    entry.createdAt now with hE2
  have hshape1 : updateEntryMetadata s id patch replace now =
      ({ s with entries := aset s.entries id E1 }, Except.ok ()) := by
    unfold updateEntryMetadata
    rw [hcur]
  have hshape2 : deleteEntryMetadata s id keys now =
      ({ s with entries := aset s.entries id E2 }, Except.ok ()) := by
    unfold deleteEntryMetadata
    rw [hcur]
  constructor
  · refine ⟨by rw [hshape1], by rw [hshape1], by rw [hshape1], by rw [hshape1],
      ⟨E1, by rw [hshape1]; exact alookup_aset_self _ _ _, rfl, rfl, rfl, rfl, rfl⟩, ?_⟩
    intro other hne
    rw [hshape1]
    exact alookup_aset_ne _ hne
  · refine ⟨by rw [hshape2], by rw [hshape2], by rw [hshape2], by rw [hshape2],
      ⟨E2, by rw [hshape2]; exact alookup_aset_self _ _ _, rfl, rfl, rfl, rfl, rfl⟩, ?_⟩
    intro other hne
    rw [hshape2]
    exact alookup_aset_ne _ hne

/-- Witness for C7 on the sample store. -/
theorem metadata_ops_touch_only_metadata_witness :
    ((updateEntryMetadata sampleStore 1 none true 5).2 = Except.ok () ∧
      (updateEntryMetadata sampleStore 1 none true 5).1.ids = sampleStore.ids ∧
      (updateEntryMetadata sampleStore 1 none true 5).1.vectors = sampleStore.vectors ∧
      (updateEntryMetadata sampleStore 1 none true 5).1.nextID = sampleStore.nextID ∧
      (∃ rec, alookup 1 (updateEntryMetadata sampleStore 1 none true 5).1.entries =
          some rec ∧
        rec.prompt = sampleEntry.prompt ∧ rec.response = sampleEntry.response ∧
        rec.id = sampleEntry.id ∧ rec.createdAt = sampleEntry.createdAt ∧
        rec.updatedAt = 5) ∧
      (∀ other, other ≠ 1 →
        alookup other (updateEntryMetadata sampleStore 1 none true 5).1.entries =
          alookup other sampleStore.entries)) ∧
    ((deleteEntryMetadata sampleStore 1 ["a"] 5).2 = Except.ok () ∧
      (deleteEntryMetadata sampleStore 1 ["a"] 5).1.ids = sampleStore.ids ∧
      (deleteEntryMetadata sampleStore 1 ["a"] 5).1.vectors = sampleStore.vectors ∧
      (deleteEntryMetadata sampleStore 1 ["a"] 5).1.nextID = sampleStore.nextID ∧
      (∃ rec, alookup 1 (deleteEntryMetadata sampleStore 1 ["a"] 5).1.entries =
          some rec ∧
        rec.prompt = sampleEntry.prompt ∧ rec.response = sampleEntry.response ∧
        rec.id = sampleEntry.id ∧ rec.createdAt = sampleEntry.createdAt ∧
        rec.updatedAt = 5) ∧
      (∀ other, other ≠ 1 →
        alookup other (deleteEntryMetadata sampleStore 1 ["a"] 5).1.entries =
          alookup other sampleStore.entries)) :=
  metadata_ops_touch_only_metadata sampleStore 1 5 sampleEntry none true ["a"]
    (by decide)

/-- Claim C3: with `replace = true` the entry's metadata becomes exactly the
patch (cleared when the patch is nil); with `replace = false` the patch is
merged key-by-key (new keys added, existing keys overwritten, untouched keys
preserved); in particular merging `{b:3,c:4}` into `{a:1,b:2}` yields
`{a:1,b:3,c:4}` and replacing with `{c:4}` yields exactly `{c:4}`. -/
theorem updateEntryMetadata_merge_replace (s : inMemoryStore) (id now : ℤ)
    (entry : Entry) (rp : Option (List (String × MVal)))
    (mp : List (String × MVal)) (hcur : alookup id s.entries = some entry)
    (hmp : (mp.map Prod.fst).Nodup) :
    (∃ rec, alookup id (updateEntryMetadata s id rp true now).1.entries = some rec ∧
      rec.metadata = rp ∧ rec.updatedAt = now) ∧
    (∃ rec m, alookup id (updateEntryMetadata s id (some mp) false now).1.entries =
        some rec ∧
      rec.metadata = some m ∧
      (∀ key, alookup key m =
        ((alookup key mp).orElse (fun _ => alookup key (entry.metadata.getD [])))) ∧
      rec.updatedAt = now) ∧
    mergeMeta [("a", MVal.num 1), ("b", MVal.num 2)]
        [("b", MVal.num 3), ("c", MVal.num 4)] =
      [("a", MVal.num 1), ("b", MVal.num 3), ("c", MVal.num 4)] ∧
    alookup 1 (updateEntryMetadata sampleStore 1 (some [("c", MVal.num 4)])
        true 2).1.entries =
      some (Entry.mk 1 "p" "r" (some [("c", MVal.num 4)]) 1 2) := by
  have hshape1 : updateEntryMetadata s id rp true now =
      ({ s with entries := aset s.entries id (Entry.mk entry.id entry.prompt entry.response rp entry.createdAt now) }, Except.ok ()) := by
    unfold updateEntryMetadata
    rw [hcur]
    cases rp <;> rfl
  set Em := Entry.mk entry.id entry.prompt entry.response
    (some (mergeMeta (entry.metadata.getD []) mp))
    entry.createdAt now with hEm
  have hshape2 : updateEntryMetadata s id (some mp) false now =
      ({ s with entries := aset s.entries id Em }, Except.ok ()) := by
    unfold updateEntryMetadata
    rw [hcur]
    rfl
  refine ⟨⟨Entry.mk entry.id entry.prompt entry.response rp entry.createdAt now,
      ?_, rfl, rfl⟩,
    ⟨Em, mergeMeta (entry.metadata.getD []) mp, ?_, rfl, ?_, rfl⟩,
    by decide, by decide⟩
  · rw [hshape1]
    exact alookup_aset_self _ _ _
  · rw [hshape2]
    exact alookup_aset_self _ _ _
  · intro key
    exact alookup_mergeMeta (entry.metadata.getD []) mp key hmp

/-- Witness for C3 on the sample store. -/
theorem updateEntryMetadata_merge_replace_witness :
    (∃ rec, alookup 1 (updateEntryMetadata sampleStore 1 none true 5).1.entries =
        some rec ∧
      rec.metadata = none ∧ rec.updatedAt = 5) ∧
    (∃ rec m, alookup 1 (updateEntryMetadata sampleStore 1
        (some [("b", MVal.num 3), ("c", MVal.num 4)]) false 5).1.entries =
        some rec ∧
      rec.metadata = some m ∧
      (∀ key, alookup key m =
        ((alookup key [("b", MVal.num 3), ("c", MVal.num 4)]).orElse
          (fun _ => alookup key (sampleEntry.metadata.getD [])))) ∧
      rec.updatedAt = 5) ∧
    mergeMeta [("a", MVal.num 1), ("b", MVal.num 2)]
        [("b", MVal.num 3), ("c", MVal.num 4)] =
      [("a", MVal.num 1), ("b", MVal.num 3), ("c", MVal.num 4)] ∧
    alookup 1 (updateEntryMetadata sampleStore 1 (some [("c", MVal.num 4)])
        true 2).1.entries =
      some (Entry.mk 1 "p" "r" (some [("c", MVal.num 4)]) 1 2) :=
  updateEntryMetadata_merge_replace sampleStore 1 5 sampleEntry none
    [("b", MVal.num 3), ("c", MVal.num 4)] (by decide) (by decide)

/-- Claim C4: on a well-formed store each point operation fails with
NotFound exactly when the id is absent, any failing operation leaves the
store unchanged, and `CreateEntryWithVector` fails exactly on a nil entry
and succeeds on every non-nil one. -/
theorem point_ops_notfound_iff (s : inMemoryStore) (id : ℤ) (e : Entry)
    (eo : Option Entry) (vec : List ℚ) (now : ℤ)
    (patch : Option (List (String × MVal))) (replace : Bool)
    (keys : List String) (msg : String) (hWF : WF s) :
    (getEntry s id = Except.error "not found" ↔ id ∉ allIDs s) ∧
    ((updateEntryWithVector s id e vec now).2 = Except.error "not found" ↔
      id ∉ allIDs s) ∧
    ((deleteEntry s id).2 = Except.error "not found" ↔ id ∉ allIDs s) ∧
    ((updateEntryMetadata s id patch replace now).2 = Except.error "not found" ↔
      id ∉ allIDs s) ∧
    ((deleteEntryMetadata s id keys now).2 = Except.error "not found" ↔
      id ∉ allIDs s) ∧
    ((updateEntryWithVector s id e vec now).2 = Except.error msg →
      (updateEntryWithVector s id e vec now).1 = s) ∧
    ((deleteEntry s id).2 = Except.error msg → (deleteEntry s id).1 = s) ∧
    ((updateEntryMetadata s id patch replace now).2 = Except.error msg →
      (updateEntryMetadata s id patch replace now).1 = s) ∧
    ((deleteEntryMetadata s id keys now).2 = Except.error msg →
      (deleteEntryMetadata s id keys now).1 = s) ∧
    ((createEntryWithVector s eo vec now).2 = Except.error msg →
      (createEntryWithVector s eo vec now).1 = s) ∧
    ((createEntryWithVector s eo vec now).2 = Except.error "nil entry" ↔
      eo = none) ∧
    (createEntryWithVector s (some e) vec now).2 = Except.ok s.nextID := by
  have hcreate_err : (createEntryWithVector s eo vec now).2 = Except.error msg →
      (createEntryWithVector s eo vec now).1 = s := by
    cases eo with
    | none => intro _; rfl
    | some e' => intro hc; simp [createEntryWithVector] at hc
  have hcreate_iff : (createEntryWithVector s eo vec now).2 = Except.error "nil entry" ↔
      eo = none := by
    cases eo with
    | none => simp [createEntryWithVector]
    | some e' => simp [createEntryWithVector]
  rcases hcur : alookup id s.entries with _ | cur
  · -- the id is absent
    have hnotin : id ∉ allIDs s := by
      intro hmem
      have : id ∈ s.entries.map Prod.fst := hWF.ids_sub _ hmem
      exact ((alookup_eq_none_iff _ _).mp hcur) this
    have h1 : getEntry s id = Except.error "not found" := by
      unfold getEntry
      rw [hcur]
    have h2 : updateEntryWithVector s id e vec now = (s, Except.error "not found") := by
      unfold updateEntryWithVector
      rw [hcur]
    have h3 : deleteEntry s id = (s, Except.error "not found") :=
      deleteEntry_of_absent (by rw [hcur]; simp)
    have h4 : updateEntryMetadata s id patch replace now = (s, Except.error "not found") := by
      unfold updateEntryMetadata
      rw [hcur]
    have h5 : deleteEntryMetadata s id keys now = (s, Except.error "not found") := by
      unfold deleteEntryMetadata
      rw [hcur]
    exact ⟨by simp [h1, hnotin], by simp [h2, hnotin], by simp [h3, hnotin],
      by simp [h4, hnotin], by simp [h5, hnotin],
      fun _ => by rw [h2], fun _ => by rw [h3], fun _ => by rw [h4],
      fun _ => by rw [h5], hcreate_err, hcreate_iff, rfl⟩
  · -- the id is present
    have hmemids : id ∈ s.ids := by
      apply hWF.keys_sub
      rw [← alookup_isSome_iff_mem, hcur]
      rfl
    have hin : id ∈ allIDs s := hmemids
    obtain ⟨j, hj1, _, _⟩ := idIndex_of_mem hmemids
    have h1 : getEntry s id = Except.ok cur := by
      unfold getEntry
      rw [hcur]
    have h2 : (updateEntryWithVector s id e vec now).2 = Except.ok () := by
      unfold updateEntryWithVector
      rw [hcur, hj1]
    have h3 : (deleteEntry s id).2 = Except.ok () := by
      rw [deleteEntry_of_present (by rw [hcur]; rfl)]
    have h4 : (updateEntryMetadata s id patch replace now).2 = Except.ok () := by
      unfold updateEntryMetadata
      rw [hcur]
    have h5 : (deleteEntryMetadata s id keys now).2 = Except.ok () := by
      unfold deleteEntryMetadata
      rw [hcur]
    exact ⟨by simp [h1, hin], by simp [h2, hin], by simp [h3, hin],
      by simp [h4, hin], by simp [h5, hin],
      fun hc => absurd (h2.symm.trans hc) (by simp),
      fun hc => absurd (h3.symm.trans hc) (by simp),
      fun hc => absurd (h4.symm.trans hc) (by simp),
      fun hc => absurd (h5.symm.trans hc) (by simp),
      hcreate_err, hcreate_iff, rfl⟩

/-- Witness for C4 on the sample store at a present id. -/
theorem point_ops_notfound_iff_witness :
    (getEntry sampleStore 1 = Except.error "not found" ↔ 1 ∉ allIDs sampleStore) ∧
    ((updateEntryWithVector sampleStore 1 zeroTimeEntry [] 5).2 =
        Except.error "not found" ↔ 1 ∉ allIDs sampleStore) ∧
    ((deleteEntry sampleStore 1).2 = Except.error "not found" ↔
      1 ∉ allIDs sampleStore) ∧
    ((updateEntryMetadata sampleStore 1 none false 5).2 = Except.error "not found" ↔
      1 ∉ allIDs sampleStore) ∧
    ((deleteEntryMetadata sampleStore 1 [] 5).2 = Except.error "not found" ↔
      1 ∉ allIDs sampleStore) ∧
    ((updateEntryWithVector sampleStore 1 zeroTimeEntry [] 5).2 =
        Except.error "boom" →
      (updateEntryWithVector sampleStore 1 zeroTimeEntry [] 5).1 = sampleStore) ∧
    ((deleteEntry sampleStore 1).2 = Except.error "boom" →
      (deleteEntry sampleStore 1).1 = sampleStore) ∧
    ((updateEntryMetadata sampleStore 1 none false 5).2 = Except.error "boom" →
      (updateEntryMetadata sampleStore 1 none false 5).1 = sampleStore) ∧
    ((deleteEntryMetadata sampleStore 1 [] 5).2 = Except.error "boom" →
      (deleteEntryMetadata sampleStore 1 [] 5).1 = sampleStore) ∧
    ((createEntryWithVector sampleStore (some zeroTimeEntry) [] 5).2 =
        Except.error "boom" →
      (createEntryWithVector sampleStore (some zeroTimeEntry) [] 5).1 = sampleStore) ∧
    ((createEntryWithVector sampleStore (some zeroTimeEntry) [] 5).2 =
        Except.error "nil entry" ↔ some zeroTimeEntry = none) ∧
    (createEntryWithVector sampleStore (some zeroTimeEntry) [] 5).2 =
      Except.ok sampleStore.nextID :=
  point_ops_notfound_iff sampleStore 1 zeroTimeEntry (some zeroTimeEntry) [] 5
    none false [] "boom" (by decide)

/-- Claim C5: every operation preserves the store invariant (distinct ids,
entry table and vector index in lockstep over the same ids, all ids below
`nextID`), and after a successful delete the id is gone for good: every
later `GetEntry` fails NotFound and the id never reappears in `AllIDs`,
whatever operations follow. -/
theorem store_invariant_and_terminal_delete :
    (∀ (s : inMemoryStore) (op : Op), WF s → WF (applyOp s op)) ∧
    (∀ (s : inMemoryStore) (id : ℤ), WF s →
      (deleteEntry s id).2 = Except.ok () →
      ∀ ops : List Op,
        getEntry (ops.foldl applyOp (deleteEntry s id).1) id =
          Except.error "not found" ∧
        id ∉ allIDs (ops.foldl applyOp (deleteEntry s id).1)) := by
  refine ⟨fun s op h => wf_applyOp s op h, ?_⟩
  intro s id hWF hok ops
  obtain ⟨hW1, hnotin, hlt⟩ := delete_success_state s id hWF hok
  obtain ⟨hW2, hnotin2, _⟩ := fresh_foldOps ops _ id hW1 hnotin hlt
  exact ⟨getEntry_error_of_not_mem hW2 hnotin2, hnotin2⟩

/-- Witness for C5: invariant preservation on a concrete create, and
terminality of a concrete delete across a later create. -/
theorem store_invariant_and_terminal_delete_witness :
    WF (applyOp sampleStore (Op.create (some zeroTimeEntry) [] 5)) ∧
    (getEntry ([Op.create (some zeroTimeEntry) [] 6].foldl applyOp
        (deleteEntry sampleStore 1).1) 1 = Except.error "not found" ∧
      1 ∉ allIDs ([Op.create (some zeroTimeEntry) [] 6].foldl applyOp
        (deleteEntry sampleStore 1).1)) :=
  ⟨store_invariant_and_terminal_delete.1 sampleStore
      (Op.create (some zeroTimeEntry) [] 5) (by decide),
   store_invariant_and_terminal_delete.2 sampleStore 1 (by decide) rfl
      [Op.create (some zeroTimeEntry) [] 6]⟩

/-- Witness for C1 on the sample store. -/
theorem searchByVector_spec_witness : TopKSpec sampleStore [1] 1 :=
  searchByVector_spec sampleStore [1] 1 (by decide)

end Slmcache
